import Mathlib

/-!
Verification of the quadratic-primes search program (Project Euler 27 style).

The program consists of three parts, embedded below directly from the source:

* an incremental prime oracle with process-wide mutable state
  (the globals PRIME_LIST, PRIME_SET, HIGHEST_CHECKED and the function
  is_prime), modelled here by an explicit state record passed through
  every call;
* a run-length evaluator get_x_max, a while loop modelled with explicit
  fuel since its termination is a fact to be proved, not assumed;
* the bounded search main, whose b-loop reads the mutable prime list and
  can in principle run off its end, which is modelled by a dedicated
  index-error result.

Pure reference notions (primality, the ideal run length, the pure search
over the enumeration order of the code) are defined separately and the
stateful code is proved to refine them.
-/

/-! ## Definitions -/

/-- Executable primality test by trial division; the mathematical
reference predicate used by the specifications (not the program). -/
def isPrimeB (k : Nat) : Bool :=
  decide (2 ≤ k) && (List.range k).all (fun d => decide (d < 2) || decide (¬ (k % d = 0)))

/-- Primality of an integer value produced by the quadratic: at least 2
and prime as a natural number. -/
def IsPrimeInt (v : Int) : Prop := 2 ≤ v ∧ Nat.Prime v.toNat

instance (v : Int) : Decidable (IsPrimeInt v) := by
  unfold IsPrimeInt
  infer_instance

/-- Floor of the square root of a natural number, executable by structural
recursion so that concrete instances evaluate in the kernel.  The source
computes floor(sqrt(y)) + 1 as the bound for trial division. -/
def isqrt (y : Nat) : Nat :=
  (List.range (y + 1)).foldl (fun acc r => if r * r ≤ y then r else acc) 0

/-- All primes up to m inclusive, in ascending order.  This is the
mathematical shape that the cached prime list is proved to keep. -/
def primesUpTo (m : Nat) : List Nat := (List.range (m + 1)).filter isPrimeB

/-- The mutable globals of the source: PRIME_LIST (ordered list of primes
found so far), PRIME_SET (its unordered mirror, used for membership
tests) and HIGHEST_CHECKED (the watermark).  The set is modelled as a
list that is appended to in lockstep with PRIME_LIST, since only
membership in it matters. -/
structure Cache where
  primeList : List Nat
  primeSet : List Nat
  highestChecked : Nat
deriving DecidableEq

/-- Initial state of the globals: empty caches, HIGHEST_CHECKED = 1. -/
def initCache : Cache := ⟨[], [], 1⟩

/-- Inner while loop of is_prime: scan the cached primes in order while
p < y_mid, and reject y as soon as a divisor is found. -/
def trialLoop (l : List Nat) (y ymid : Nat) : Bool :=
  match l with
  | [] => true
  | p :: ps => if p < ymid then (if y % p = 0 then false else trialLoop ps y ymid) else true

/-- Body of the for-y loop of is_prime: trial-divide y against the cached
primes below floor(sqrt(y)) + 1 and append it to both caches if it
survives. -/
def checkOne (c : Cache) (y : Nat) : Cache :=
  if trialLoop c.primeList y (isqrt y + 1) then
    { c with primeList := c.primeList ++ [y], primeSet := c.primeSet ++ [y] }
  else c

/-- Extension branch of is_prime: check every y from HIGHEST_CHECKED + 1
to x inclusive, then advance the watermark to x. -/
def extendTo (c : Cache) (x : Nat) : Cache :=
  let c' := (List.range' (c.highestChecked + 1) (x - c.highestChecked)).foldl checkOne c
  { c' with highestChecked := x }

/-- The function is_prime: the boolean answer plus the updated globals.
Arguments below 2 are answered immediately without touching the cache;
otherwise the cache is extended when the argument is above the watermark
and the answer is membership in PRIME_SET. -/
def isPrimeCore (c : Cache) (x : Int) : Bool × Cache :=
  if x < 2 then (false, c)
  else if c.highestChecked < x.toNat then
    (decide (x.toNat ∈ (extendTo c x.toNat).primeSet), extendTo c x.toNat)
  else (decide (x.toNat ∈ c.primeSet), c)

/-- The cache invariant: both caches hold exactly the primes up to the
watermark, in ascending order for the list, and the watermark is at least
its initial value 1. -/
def goodCache (c : Cache) : Prop :=
  c.primeList = primesUpTo c.highestChecked ∧
  c.primeSet = primesUpTo c.highestChecked ∧
  1 ≤ c.highestChecked

/-- The cache state that results from a sequence of is_prime calls made
from the initial process state; used to quantify over reachable states. -/
def runQueries (qs : List Int) : Cache :=
  qs.foldl (fun c q => (isPrimeCore c q).2) initCache

/-- The list of answers is_prime gives to a sequence of queries issued in
order from a given starting state. -/
def answersFrom : Cache → List Int → List Bool
  | _, [] => []
  | c, q :: qs => (isPrimeCore c q).1 :: answersFrom (isPrimeCore c q).2 qs

/-- Value of the quadratic x^2 + a*x + b at the loop counter x. -/
def qvalN (a b : Int) (x : Nat) : Int := (x : Int) ^ 2 + a * (x : Int) + b

/-- Index of the first x at which the quadratic value is not prime, found
by the same forward scan as the while loop of get_x_max but against the
pure primality predicate; fuel-bounded, returning none if fuel runs out
before a failure is met. -/
def firstFail (a b : Int) : Nat → Nat → Option Nat
  | 0, _ => none
  | fuel + 1, x => if IsPrimeInt (qvalN a b x) then firstFail a b fuel (x + 1) else some x

/-- First index at which the quadratic with coefficients a, b is not
prime.  The fuel b.toNat + 2 is proved sufficient below. -/
def stopN (a b : Int) : Nat := (firstFail a b (b.toNat + 2) 0).getD 0

/-- The ideal run length of get_x_max: the failing index minus one, hence
minus one when even the value at x = 0 (which equals b) is not prime. -/
def runLen (a b : Int) : Int := (stopN a b : Int) - 1

/-- The while loop of get_x_max, with the cache threaded through every
is_prime call and explicit fuel (the source loop has no bound; its
termination is proved, not assumed).  The loop counter starts at 0 and
x - 1 is returned at the first failing value. -/
def getXMaxSt (a b : Int) : Nat → Nat → Cache → Option (Int × Cache)
  | 0, _, _ => none
  | fuel + 1, x, c =>
    if (isPrimeCore c (qvalN a b x)).1 then
      getXMaxSt a b fuel (x + 1) (isPrimeCore c (qvalN a b x)).2
    else some ((x : Int) - 1, (isPrimeCore c (qvalN a b x)).2)

/-- Lower bound of a for a fixed b, from the notes of main: a_lo = 1 - b,
bumped to the next odd integer when even (the Python bool-to-int add). -/
def aLoAdj (b : Int) : Int := (1 - b) + (if (1 - b) % 2 = 0 then 1 else 0)

/-- Python range(lo, hi, 2) over the integers. -/
def pyRange2 (lo hi : Int) : List Int :=
  (List.range ((hi - lo + 1).toNat / 2)).map (fun (k : Nat) => lo + 2 * (k : Int))

/-- The a-values tried by main for a fixed b: range(a_lo, n, 2) after the
odd adjustment. -/
def aList (n b : Int) : List Int := pyRange2 (aLoAdj b) n

/-- The b-values tried by main: exactly the primes below n, which is the
content of the prime list right after the seeding call is_prime(n-1). -/
def bList (n : Int) : List Nat := primesUpTo (n - 1).toNat

/-- The full (a, b) enumeration of main in iteration order: b ascending
over the primes below n, then a ascending. -/
def codePairs (n : Int) : List (Int × Int) :=
  (bList n).flatMap (fun p => (aList n (p : Int)).map (fun a => (a, (p : Int))))

/-- The tail of the enumeration of main from b-index i on: used to state
the loop invariant of the b-loop. -/
def pairsFrom (n : Int) (i : Nat) : List (Int × Int) :=
  ((bList n).drop i).flatMap (fun p => (aList n (p : Int)).map (fun a => (a, (p : Int))))

/-- The update of the best triple performed by the body of main: the
recorded triple is overwritten only on strict improvement of the run
length. -/
def updBest (best : Int × Int × Int) (pr : Int × Int) : Int × Int × Int :=
  if best.2.2 < runLen pr.1 pr.2 then (pr.1, pr.2, runLen pr.1 pr.2) else best

/-- Folding the best-update over a list of candidate pairs. -/
def searchFold (best : Int × Int × Int) (l : List (Int × Int)) : Int × Int × Int :=
  l.foldl updBest best

/-- The pure search: what main computes, expressed without state.  The
stateful main is proved to return exactly this triple. -/
def pureSearch (n : Int) : Int × Int × Int := searchFold (-1, -1, -1) (codePairs n)

/-- Possible outcomes of main: a returned triple, the IndexError raised
by PRIME_LIST[i_b] when the index is out of range, the assertion failure
on a non-positive argument, or fuel exhaustion of the model. -/
inductive MainRes where
  | out : Int → Int → Int → MainRes
  | ixErr : MainRes
  | assertErr : MainRes
  | noFuel : MainRes
deriving DecidableEq

/-- The inner for-a loop of main: run get_x_max for each a, keeping the
best triple, threading the cache. -/
def aLoop (b : Int) (f : Nat) :
    List Int → (Int × Int × Int) → Cache → Option ((Int × Int × Int) × Cache)
  | [], best, c => some (best, c)
  | a :: as, best, c =>
    match getXMaxSt a b f 0 c with
    | none => none
    | some (x, c') => aLoop b f as (if best.2.2 < x then (a, b, x) else best) c'

/-- The b-loop of main: while PRIME_LIST[i_b] < n, run the a-loop for
b = PRIME_LIST[i_b].  Reading past the end of the prime list is the
IndexError outcome. -/
def mainLoop (n : Int) : Nat → Nat → (Int × Int × Int) → Cache → MainRes
  | 0, _, _, _ => MainRes.noFuel
  | f + 1, i, best, c =>
    match c.primeList[i]? with
    | none => MainRes.ixErr
    | some p =>
      if (p : Int) < n then
        match aLoop (p : Int) f (aList n (p : Int)) best c with
        | none => MainRes.noFuel
        | some (best', c') => mainLoop n f (i + 1) best' c'
      else MainRes.out best.1 best.2.1 best.2.2

/-- The function main: assert n > 0, seed the cache with is_prime(n-1),
then run the b-loop from index 0 with the sentinel best (-1, -1, -1). -/
def mainF (fuel : Nat) (n : Int) : MainRes :=
  if n ≤ 0 then MainRes.assertErr
  else mainLoop n fuel 0 (-1, -1, -1) (isPrimeCore initCache (n - 1)).2

/-- Fuel sufficient for main at bound n, proved adequate below. -/
def mainFuel (n : Int) : Nat := 2 * n.toNat + 4

/-- main(n) returns the triple r: some amount of fuel makes the model
produce it (fuel only models termination, which is proved). -/
def MainReturns (n : Int) (r : Int × Int × Int) : Prop :=
  ∃ fuel, mainF fuel n = MainRes.out r.1 r.2.1 r.2.2

instance (c : Cache) : Decidable (goodCache c) := by
  unfold goodCache
  infer_instance

/-! ## Theorems -/

theorem isPrimeB_iff (k : Nat) : isPrimeB k = true ↔ Nat.Prime k := by
  rw [Nat.prime_def_lt]
  simp only [isPrimeB, Bool.and_eq_true, decide_eq_true_iff, List.all_eq_true,
    List.mem_range, Bool.or_eq_true]
  constructor
  · rintro ⟨h2, h⟩
    refine ⟨h2, fun m hm hdvd => ?_⟩
    rcases h m hm with hlt | hmod
    · interval_cases m
      · exact absurd (Nat.eq_zero_of_zero_dvd hdvd) (by omega)
      · rfl
    · exact absurd ((Nat.dvd_iff_mod_eq_zero).mp hdvd) hmod
  · rintro ⟨h2, h⟩
    refine ⟨h2, fun d hd => ?_⟩
    by_cases hd2 : d < 2
    · exact Or.inl hd2
    · refine Or.inr fun hmod => ?_
      have := h d hd ((Nat.dvd_iff_mod_eq_zero).mpr hmod)
      omega

theorem not_isPrimeInt_of_lt_two {v : Int} (h : v < 2) : ¬ IsPrimeInt v :=
  fun hv => absurd hv.1 (by omega)

/-- An even integer other than 2 is not prime. -/
theorem not_isPrimeInt_even {v : Int} (h2 : v % 2 = 0) (hne : v ≠ 2) : ¬ IsPrimeInt v := by
  rintro ⟨hv2, hp⟩
  have hmod : v.toNat % 2 = 0 := by omega
  have := (Nat.Prime.even_iff hp).mp (Nat.even_iff.mpr hmod)
  omega

/-- A product of two integers that are both at least 2 is not prime. -/
theorem not_isPrimeInt_mul {s t : Int} (hs : 2 ≤ s) (ht : 2 ≤ t) :
    ¬ IsPrimeInt (s * t) := by
  intro hv
  obtain ⟨sn, rfl⟩ : ∃ sn : Nat, s = sn := ⟨s.toNat, by omega⟩
  obtain ⟨tn, rfl⟩ : ∃ tn : Nat, t = tn := ⟨t.toNat, by omega⟩
  obtain ⟨hv2, hp⟩ := hv
  rw [← Nat.cast_mul, Int.toNat_natCast] at hp
  exact Nat.not_prime_mul (by omega) (by omega) hp

theorem isqrt_aux (y m : Nat) :
    ((List.range m).foldl (fun acc r => if r * r ≤ y then r else acc) 0) *
        ((List.range m).foldl (fun acc r => if r * r ≤ y then r else acc) 0) ≤ y ∧
      ((List.range m).foldl (fun acc r => if r * r ≤ y then r else acc) 0) ≤ m ∧
      ∀ r < m, r * r ≤ y →
        r ≤ (List.range m).foldl (fun acc r => if r * r ≤ y then r else acc) 0 := by
  induction m with
  | zero =>
    refine ⟨by simp, by simp, ?_⟩
    intro r hr
    omega
  | succ m ih =>
    obtain ⟨h1, h2, h3⟩ := ih
    rw [List.range_succ, List.foldl_append, List.foldl_cons, List.foldl_nil]
    by_cases hm : m * m ≤ y
    · rw [if_pos hm]
      exact ⟨hm, by omega, fun r hr _ => by omega⟩
    · rw [if_neg hm]
      refine ⟨h1, by omega, fun r hr hry => ?_⟩
      rcases Nat.lt_succ_iff_lt_or_eq.mp hr with h | h
      · exact h3 r h hry
      · exact absurd (h ▸ hry) hm

theorem isqrt_sq_le (y : Nat) : isqrt y * isqrt y ≤ y := by
  unfold isqrt
  exact (isqrt_aux y (y + 1)).1

theorem lt_isqrt_succ (y : Nat) : y < (isqrt y + 1) * (isqrt y + 1) := by
  by_contra hcon
  push_neg at hcon
  have hle : isqrt y + 1 ≤ y := by nlinarith
  have hmax := (isqrt_aux y (y + 1)).2.2 (isqrt y + 1) (by omega) hcon
  unfold isqrt at hmax
  omega

theorem le_isqrt_iff {p y : Nat} : p ≤ isqrt y ↔ p * p ≤ y := by
  constructor
  · intro h
    calc p * p ≤ isqrt y * isqrt y := Nat.mul_le_mul h h
    _ ≤ y := isqrt_sq_le y
  · intro h
    by_contra hc
    push_neg at hc
    have : (isqrt y + 1) * (isqrt y + 1) ≤ p * p := Nat.mul_le_mul hc hc
    have := lt_isqrt_succ y
    omega

theorem isqrt_lt_self {y : Nat} (h : 2 ≤ y) : isqrt y < y := by
  by_contra hc
  push_neg at hc
  have h1 : y * y ≤ isqrt y * isqrt y := Nat.mul_le_mul hc hc
  have h2 := isqrt_sq_le y
  nlinarith

theorem mem_primesUpTo {p m : Nat} : p ∈ primesUpTo m ↔ Nat.Prime p ∧ p ≤ m := by
  simp only [primesUpTo, List.mem_filter, List.mem_range, isPrimeB_iff]
  constructor
  · rintro ⟨h1, h2⟩
    exact ⟨h2, by omega⟩
  · rintro ⟨h1, h2⟩
    exact ⟨by omega, h1⟩

theorem primesUpTo_sorted (m : Nat) : List.Pairwise (· < ·) (primesUpTo m) :=
  List.Pairwise.filter _ (List.pairwise_lt_range _)

theorem primesUpTo_succ (m : Nat) :
    primesUpTo (m + 1) =
      primesUpTo m ++ (if isPrimeB (m + 1) then [m + 1] else []) := by
  unfold primesUpTo
  rw [List.range_succ, List.filter_append]
  congr 1
  by_cases h : isPrimeB (m + 1)
  · simp [h]
  · simp [h]

theorem primesUpTo_mono {m m' : Nat} (h : m ≤ m') :
    primesUpTo m <+: primesUpTo m' := by
  induction m', h using Nat.le_induction with
  | base => exact ⟨[], List.append_nil _⟩
  | succ n hmn ih =>
    refine ih.trans ?_
    rw [primesUpTo_succ]
    exact ⟨_, rfl⟩

theorem primesUpTo_one : primesUpTo 1 = [] := by decide

theorem two_mem_primesUpTo {m : Nat} (h : 2 ≤ m) : 2 ∈ primesUpTo m :=
  mem_primesUpTo.mpr ⟨Nat.prime_two, h⟩

theorem initCache_good : goodCache initCache :=
  ⟨primesUpTo_one.symm, primesUpTo_one.symm, Nat.le_refl 1⟩

theorem trialLoop_eq_true (y ymid : Nat) :
    ∀ {l : List Nat}, List.Pairwise (· < ·) l →
      (trialLoop l y ymid = true ↔ ∀ p ∈ l, p < ymid → y % p ≠ 0)
  | [], _ => by simp [trialLoop]
  | p :: ps, hs => by
    obtain ⟨hp, hps⟩ := List.pairwise_cons.mp hs
    have ih := trialLoop_eq_true y ymid hps
    by_cases h1 : p < ymid
    · by_cases h2 : y % p = 0
      · simp only [trialLoop, if_pos h1, if_pos h2]
        constructor
        · intro h
          exact absurd h (by simp)
        · intro hall
          exact absurd h2 (hall p (List.mem_cons_self p ps) h1)
      · simp only [trialLoop, if_pos h1, if_neg h2, ih]
        constructor
        · intro hall q hq hlt
          rcases List.mem_cons.mp hq with rfl | hq'
          · exact h2
          · exact hall q hq' hlt
        · intro hall q hq hlt
          exact hall q (List.mem_cons_of_mem p hq) hlt
    · simp only [trialLoop, if_neg h1]
      constructor
      · intro _ q hq hlt
        rcases List.mem_cons.mp hq with rfl | hq'
        · exact absurd hlt h1
        · exact absurd hlt (by have := hp q hq'; omega)
      · intro _
        trivial

/-- Correctness of one sieving step: when both caches hold exactly the
primes up to m, trial division admits m + 1 exactly when it is prime. -/
theorem checkOne_eq {c : Cache} {m : Nat} (hm : 1 ≤ m)
    (hl : c.primeList = primesUpTo m) (hset : c.primeSet = primesUpTo m) :
    (checkOne c (m + 1)).primeList = primesUpTo (m + 1) ∧
    (checkOne c (m + 1)).primeSet = primesUpTo (m + 1) ∧
    (checkOne c (m + 1)).highestChecked = c.highestChecked := by
  have key : trialLoop (primesUpTo m) (m + 1) (isqrt (m + 1) + 1) = true ↔
      Nat.Prime (m + 1) := by
    rw [trialLoop_eq_true _ _ (primesUpTo_sorted m)]
    constructor
    · intro hall
      by_contra hnp
      have hsq := Nat.minFac_sq_le_self (n := m + 1) (by omega) hnp
      have hpp : Nat.Prime ((m + 1).minFac) := Nat.minFac_prime (by omega)
      have hpd : (m + 1).minFac ∣ m + 1 := Nat.minFac_dvd _
      have hple : (m + 1).minFac ≤ isqrt (m + 1) := by
        rw [le_isqrt_iff, ← pow_two]
        exact hsq
      have hiso : isqrt (m + 1) < m + 1 := isqrt_lt_self (by omega)
      refine hall ((m + 1).minFac) (mem_primesUpTo.mpr ⟨hpp, by omega⟩) (by omega) ?_
      exact (Nat.dvd_iff_mod_eq_zero).mp hpd
    · intro hprime q hq hlt hmod
      obtain ⟨hqp, hqle⟩ := mem_primesUpTo.mp hq
      have hqd : q ∣ m + 1 := (Nat.dvd_iff_mod_eq_zero).mpr hmod
      rcases hprime.eq_one_or_self_of_dvd q hqd with h | h
      · exact absurd h hqp.ne_one
      · omega
  unfold checkOne
  rw [hl, hset]
  by_cases hpr : Nat.Prime (m + 1)
  · rw [if_pos (key.mpr hpr)]
    refine ⟨?_, ?_, rfl⟩ <;>
      · show primesUpTo m ++ [m + 1] = primesUpTo (m + 1)
        rw [primesUpTo_succ, if_pos ((isPrimeB_iff _).mpr hpr)]
  · rw [if_neg (fun ht => hpr (key.mp ht))]
    refine ⟨?_, ?_, rfl⟩
    · rw [hl, primesUpTo_succ, if_neg (fun ht => hpr ((isPrimeB_iff _).mp ht)), List.append_nil]
    · rw [hset, primesUpTo_succ, if_neg (fun ht => hpr ((isPrimeB_iff _).mp ht)), List.append_nil]

theorem extendFold_spec : ∀ (cnt : Nat) (c : Cache) (m : Nat), 1 ≤ m →
    c.primeList = primesUpTo m → c.primeSet = primesUpTo m →
    ((List.range' (m + 1) cnt).foldl checkOne c).primeList = primesUpTo (m + cnt) ∧
    ((List.range' (m + 1) cnt).foldl checkOne c).primeSet = primesUpTo (m + cnt) ∧
    ((List.range' (m + 1) cnt).foldl checkOne c).highestChecked = c.highestChecked
  | 0, c, m, _, hl, hs => by simpa using ⟨hl, hs⟩
  | cnt + 1, c, m, hm, hl, hs => by
    rw [List.range'_succ, List.foldl_cons]
    obtain ⟨h1, h2, h3⟩ := checkOne_eq hm hl hs
    have ih := extendFold_spec cnt (checkOne c (m + 1)) (m + 1) (by omega) h1 h2
    have harith : m + 1 + cnt = m + (cnt + 1) := by omega
    rw [harith] at ih
    exact ⟨ih.1, ih.2.1, by rw [ih.2.2, h3]⟩

theorem extendTo_spec {c : Cache} {x : Nat} (hg : goodCache c) (hx : c.highestChecked < x) :
    goodCache (extendTo c x) ∧ (extendTo c x).highestChecked = x ∧
      c.primeList <+: (extendTo c x).primeList := by
  obtain ⟨hl, hs, hm⟩ := hg
  have hspec := extendFold_spec (x - c.highestChecked) c c.highestChecked hm hl hs
  have hsum : c.highestChecked + (x - c.highestChecked) = x := by omega
  rw [hsum] at hspec
  refine ⟨⟨hspec.1, hspec.2.1, by show 1 ≤ x; omega⟩, rfl, ?_⟩
  rw [hl]
  show primesUpTo c.highestChecked <+:
    ((List.range' (c.highestChecked + 1) (x - c.highestChecked)).foldl checkOne c).primeList
  rw [hspec.1]
  exact primesUpTo_mono (by omega)

/-- Full specification of one is_prime call from a good cache: the answer
is pure primality, the invariant is preserved, the prime list only grows,
the watermark never decreases, and it reaches the queried value. -/
theorem isPrimeCore_spec {c : Cache} (hg : goodCache c) (x : Int) :
    ((isPrimeCore c x).1 = true ↔ IsPrimeInt x) ∧
    goodCache (isPrimeCore c x).2 ∧
    c.primeList <+: (isPrimeCore c x).2.primeList ∧
    c.highestChecked ≤ (isPrimeCore c x).2.highestChecked ∧
    (2 ≤ x → x.toNat ≤ (isPrimeCore c x).2.highestChecked) := by
  by_cases hx : x < 2
  · simp only [isPrimeCore, if_pos hx]
    refine ⟨?_, hg, ⟨[], List.append_nil _⟩, Nat.le_refl _, fun h => absurd h (by omega)⟩
    simp only [Bool.false_eq_true, false_iff]
    exact not_isPrimeInt_of_lt_two hx
  · have hx2 : (2 : Int) ≤ x := by omega
    by_cases hhc : c.highestChecked < x.toNat
    · obtain ⟨hg', hhc', hpre⟩ := extendTo_spec hg hhc
      simp only [isPrimeCore, if_neg hx, if_pos hhc]
      refine ⟨?_, hg', hpre, by omega, fun _ => by omega⟩
      rw [decide_eq_true_eq, hg'.2.1, hhc', mem_primesUpTo]
      constructor
      · rintro ⟨hp, _⟩
        exact ⟨hx2, hp⟩
      · rintro ⟨_, hp⟩
        exact ⟨hp, Nat.le_refl _⟩
    · simp only [isPrimeCore, if_neg hx, if_neg hhc]
      refine ⟨?_, hg, ⟨[], List.append_nil _⟩, Nat.le_refl _, fun _ => by omega⟩
      rw [decide_eq_true_eq, hg.2.1, mem_primesUpTo]
      constructor
      · rintro ⟨hp, _⟩
        exact ⟨hx2, hp⟩
      · rintro ⟨_, hp⟩
        exact ⟨hp, by omega⟩

theorem isPrimeCore_good {c : Cache} (hg : goodCache c) (x : Int) :
    goodCache (isPrimeCore c x).2 :=
  (isPrimeCore_spec hg x).2.1

/-- The watermark never decreases on any call, good cache or not. -/
theorem isPrimeCore_hc_mono (c : Cache) (x : Int) :
    c.highestChecked ≤ ((isPrimeCore c x).2).highestChecked := by
  unfold isPrimeCore
  by_cases hx : x < 2
  · rw [if_pos hx]
  · rw [if_neg hx]
    by_cases hhc : c.highestChecked < x.toNat
    · rw [if_pos hhc]
      show c.highestChecked ≤ x.toNat
      omega
    · rw [if_neg hhc]

/-- After querying a value of at least 2, the watermark is at least that
value, good cache or not. -/
theorem isPrimeCore_hc_ge {c : Cache} {x : Int} (hx : 2 ≤ x) :
    x.toNat ≤ ((isPrimeCore c x).2).highestChecked := by
  unfold isPrimeCore
  rw [if_neg (by omega : ¬ x < 2)]
  by_cases hhc : c.highestChecked < x.toNat
  · rw [if_pos hhc]
    show x.toNat ≤ x.toNat
    omega
  · rw [if_neg hhc]
    show x.toNat ≤ c.highestChecked
    omega

theorem runQueries_good (qs : List Int) : goodCache (runQueries qs) := by
  suffices h : ∀ c, goodCache c → goodCache (qs.foldl (fun c q => (isPrimeCore c q).2) c) from
    h initCache initCache_good
  induction qs with
  | nil => exact fun c hc => hc
  | cons q qs ih => exact fun c hc => ih _ (isPrimeCore_good hc q)

/-- From any good cache, the answers of is_prime to a sequence of queries
are exactly the pure primality of each query, independent of the order
and of the state mutations the earlier queries caused. -/
theorem answersFrom_pure : ∀ (qs : List Int) (c : Cache), goodCache c →
    answersFrom c qs = qs.map (fun q => decide (IsPrimeInt q))
  | [], _, _ => rfl
  | q :: qs, c, hg => by
    simp only [answersFrom, List.map_cons]
    rw [answersFrom_pure qs _ (isPrimeCore_good hg q)]
    have h := (isPrimeCore_spec hg q).1
    by_cases hq : IsPrimeInt q
    · rw [h.mpr hq, decide_eq_true hq]
    · cases hb : (isPrimeCore c q).1 with
      | false => rw [decide_eq_false hq]
      | true => exact absurd (h.mp hb) hq

theorem qvalN_zero (a b : Int) : qvalN a b 0 = b := by
  simp [qvalN]

theorem qvalN_one (a b : Int) : qvalN a b 1 = 1 + a + b := by
  simp only [qvalN, Nat.cast_one]
  ring

theorem qvalN_two (a b : Int) : qvalN a b 2 = 4 + 2 * a + b := by
  simp only [qvalN, Nat.cast_ofNat]
  ring

theorem qvalN_three (a b : Int) : qvalN a b 3 = 9 + 3 * a + b := by
  simp only [qvalN, Nat.cast_ofNat]
  ring

theorem qvalN_b {a b : Int} (hb : 2 ≤ b) : qvalN a b b.toNat = b * (b + a + 1) := by
  have h : ((b.toNat : Nat) : Int) = b := by omega
  unfold qvalN
  rw [h]
  ring

/-- Every quadratic hits a non-prime value at an index at most b + 1:
immediately when b is below 2, at x = 1 when the value there is below 2,
and at x = b otherwise, where the value factors as b * (b + a + 1). -/
theorem exists_fail (a b : Int) : ∃ m : Nat, m ≤ b.toNat + 1 ∧ ¬ IsPrimeInt (qvalN a b m) := by
  by_cases hb : b < 2
  · exact ⟨0, by omega, by rw [qvalN_zero]; exact not_isPrimeInt_of_lt_two hb⟩
  · push_neg at hb
    by_cases ha : a + b + 1 < 2
    · refine ⟨1, by omega, ?_⟩
      rw [qvalN_one]
      exact not_isPrimeInt_of_lt_two (by omega)
    · push_neg at ha
      refine ⟨b.toNat, by omega, ?_⟩
      rw [qvalN_b hb]
      exact not_isPrimeInt_mul hb (by omega)

theorem firstFail_spec (a b : Int) : ∀ (fuel x : Nat),
    (∃ m : Nat, x ≤ m ∧ m < x + fuel ∧ ¬ IsPrimeInt (qvalN a b m)) →
    ∃ s : Nat, firstFail a b fuel x = some s ∧ x ≤ s ∧ ¬ IsPrimeInt (qvalN a b s) ∧
      ∀ k : Nat, x ≤ k → k < s → IsPrimeInt (qvalN a b k)
  | 0, x, h => by
    obtain ⟨m, h1, h2, _⟩ := h
    exact absurd h2 (by omega)
  | fuel + 1, x, h => by
    by_cases hx : IsPrimeInt (qvalN a b x)
    · obtain ⟨m, h1, h2, h3⟩ := h
      have hmx : m ≠ x := fun he => h3 (he ▸ hx)
      obtain ⟨s, hs1, hs2, hs3, hs4⟩ :=
        firstFail_spec a b fuel (x + 1) ⟨m, by omega, by omega, h3⟩
      refine ⟨s, ?_, by omega, hs3, ?_⟩
      · simp only [firstFail, if_pos hx]
        exact hs1
      · intro k hk1 hk2
        rcases Nat.eq_or_lt_of_le hk1 with rfl | hlt
        · exact hx
        · exact hs4 k (by omega) hk2
    · refine ⟨x, ?_, Nat.le_refl x, hx, fun k hk1 hk2 => by omega⟩
      simp only [firstFail, if_neg hx]

/-- stopN is the first index at which the quadratic value is not prime. -/
theorem stopN_spec (a b : Int) :
    ¬ IsPrimeInt (qvalN a b (stopN a b)) ∧
    ∀ k : Nat, k < stopN a b → IsPrimeInt (qvalN a b k) := by
  obtain ⟨m, hm1, hm2⟩ := exists_fail a b
  obtain ⟨s, hs1, _, hs3, hs4⟩ :=
    firstFail_spec a b (b.toNat + 2) 0 ⟨m, by omega, by omega, hm2⟩
  unfold stopN
  rw [hs1]
  simp only [Option.getD_some]
  exact ⟨hs3, fun k hk => hs4 k (by omega) hk⟩

theorem stopN_le_of_fail {a b : Int} {m : Nat} (h : ¬ IsPrimeInt (qvalN a b m)) :
    stopN a b ≤ m := by
  by_contra hc
  push_neg at hc
  exact h ((stopN_spec a b).2 m hc)

theorem lt_stopN_of_all {a b : Int} {m : Nat} (h : ∀ k ≤ m, IsPrimeInt (qvalN a b k)) :
    m < stopN a b := by
  by_contra hc
  push_neg at hc
  exact (stopN_spec a b).1 (h _ hc)

theorem stopN_le_bound (a b : Int) : stopN a b ≤ b.toNat + 1 := by
  obtain ⟨m, h1, h2⟩ := exists_fail a b
  exact le_trans (stopN_le_of_fail h2) h1

theorem runLen_eq_neg_one_iff (a b : Int) : runLen a b = -1 ↔ ¬ IsPrimeInt b := by
  unfold runLen
  constructor
  · intro h
    have h0 : stopN a b = 0 := by omega
    have hs := (stopN_spec a b).1
    rw [h0, qvalN_zero] at hs
    exact hs
  · intro h
    have hle : stopN a b ≤ 0 := stopN_le_of_fail (by rw [qvalN_zero]; exact h)
    omega

theorem runLen_ge_neg_one (a b : Int) : -1 ≤ runLen a b := by
  unfold runLen
  omega

theorem runLen_le_of_fail {a b : Int} {m : Nat} (h : ¬ IsPrimeInt (qvalN a b m)) :
    runLen a b ≤ (m : Int) - 1 := by
  have := stopN_le_of_fail h
  unfold runLen
  omega

theorem runLen_ge_of_all {a b : Int} {m : Nat} (h : ∀ k ≤ m, IsPrimeInt (qvalN a b k)) :
    (m : Int) ≤ runLen a b := by
  have := lt_stopN_of_all h
  unfold runLen
  omega

theorem runLen_all_prime {a b : Int} {k : Nat} (h : (k : Int) ≤ runLen a b) :
    IsPrimeInt (qvalN a b k) := by
  refine (stopN_spec a b).2 k ?_
  unfold runLen at h
  omega

theorem runLen_next_fail (a b : Int) :
    ¬ IsPrimeInt (qvalN a b (runLen a b + 1).toNat) := by
  have harith : (runLen a b + 1).toNat = stopN a b := by
    unfold runLen
    omega
  rw [harith]
  exact (stopN_spec a b).1

theorem getXMaxSt_succ_true {a b : Int} {fuel x : Nat} {c : Cache}
    (h : (isPrimeCore c (qvalN a b x)).1 = true) :
    getXMaxSt a b (fuel + 1) x c =
      getXMaxSt a b fuel (x + 1) (isPrimeCore c (qvalN a b x)).2 := by
  simp [getXMaxSt, h]

theorem getXMaxSt_succ_false {a b : Int} {fuel x : Nat} {c : Cache}
    (h : (isPrimeCore c (qvalN a b x)).1 = false) :
    getXMaxSt a b (fuel + 1) x c =
      some ((x : Int) - 1, (isPrimeCore c (qvalN a b x)).2) := by
  simp [getXMaxSt, h]

theorem getXMaxSt_hc_mono {a b : Int} (fuel : Nat) :
    ∀ (x : Nat) (c : Cache) (r : Int) (c' : Cache),
      getXMaxSt a b fuel x c = some (r, c') → c.highestChecked ≤ c'.highestChecked := by
  induction fuel with
  | zero =>
    intro x c r c' h
    simp [getXMaxSt] at h
  | succ fuel ih =>
    intro x c r c' h
    cases hb : (isPrimeCore c (qvalN a b x)).1 with
    | true =>
      rw [getXMaxSt_succ_true hb] at h
      exact le_trans (isPrimeCore_hc_mono c _) (ih _ _ _ _ h)
    | false =>
      rw [getXMaxSt_succ_false hb] at h
      have h2 := Option.some.inj h
      have hc' : (isPrimeCore c (qvalN a b x)).2 = c' := congrArg Prod.snd h2
      rw [← hc']
      exact isPrimeCore_hc_mono c _

/-- Any successful run of the get_x_max loop from a good cache returns
the ideal run length (provided the values below the starting counter were
all prime, as holds for the start 0). -/
theorem getXMaxSt_result {a b : Int} (fuel : Nat) :
    ∀ (x : Nat) (c : Cache) (r : Int) (c' : Cache), goodCache c →
      (∀ k : Nat, k < x → IsPrimeInt (qvalN a b k)) →
      getXMaxSt a b fuel x c = some (r, c') → r = runLen a b := by
  induction fuel with
  | zero =>
    intro x c r c' _ _ h
    simp [getXMaxSt] at h
  | succ fuel ih =>
    intro x c r c' hg hall h
    have hspec := isPrimeCore_spec hg (qvalN a b x)
    cases hb : (isPrimeCore c (qvalN a b x)).1 with
    | true =>
      rw [getXMaxSt_succ_true hb] at h
      refine ih (x + 1) _ r c' hspec.2.1 ?_ h
      intro k hk
      rcases Nat.lt_succ_iff_lt_or_eq.mp hk with hlt | heq
      · exact hall k hlt
      · exact heq ▸ hspec.1.mp hb
    | false =>
      rw [getXMaxSt_succ_false hb] at h
      have hr : (x : Int) - 1 = r := congrArg Prod.fst (Option.some.inj h)
      have hfail : ¬ IsPrimeInt (qvalN a b x) := fun hp => by
        rw [hspec.1.mpr hp] at hb
        cases hb
      have h1 : stopN a b ≤ x := stopN_le_of_fail hfail
      have h2 : x ≤ stopN a b := by
        by_contra hcon
        push_neg at hcon
        exact (stopN_spec a b).1 (hall _ hcon)
      unfold runLen
      omega

/-- With fuel at least stopN + 1 - x, the loop from counter x completes
and returns the ideal run length, preserving the invariant and growing
the watermark. -/
theorem getXMaxSt_run {a b : Int} : ∀ (fuel x : Nat) (c : Cache), goodCache c →
    x ≤ stopN a b → stopN a b + 1 ≤ x + fuel →
    (∀ k : Nat, k < x → IsPrimeInt (qvalN a b k)) →
    ∃ c', getXMaxSt a b fuel x c = some (runLen a b, c') ∧ goodCache c' ∧
      c.highestChecked ≤ c'.highestChecked
  | 0, x, c, _, hx1, hx2, _ => absurd hx2 (by omega)
  | fuel + 1, x, c, hg, hx1, hx2, hall => by
    have hspec := isPrimeCore_spec hg (qvalN a b x)
    rcases Nat.eq_or_lt_of_le hx1 with heq | hlt
    · have hfail : ¬ IsPrimeInt (qvalN a b x) := heq ▸ (stopN_spec a b).1
      have hb : (isPrimeCore c (qvalN a b x)).1 = false := by
        cases hbb : (isPrimeCore c (qvalN a b x)).1 with
        | true => exact absurd (hspec.1.mp hbb) hfail
        | false => rfl
      refine ⟨(isPrimeCore c (qvalN a b x)).2, ?_, hspec.2.1, hspec.2.2.2.1⟩
      rw [getXMaxSt_succ_false hb]
      have : (x : Int) - 1 = runLen a b := by
        unfold runLen
        omega
      rw [this]
    · have hprime : IsPrimeInt (qvalN a b x) := (stopN_spec a b).2 x hlt
      have hb : (isPrimeCore c (qvalN a b x)).1 = true := hspec.1.mpr hprime
      obtain ⟨c', h1, h2, h3⟩ :=
        @getXMaxSt_run a b fuel (x + 1) (isPrimeCore c (qvalN a b x)).2 hspec.2.1
          (by omega) (by omega)
          (fun k hk => by
            rcases Nat.lt_succ_iff_lt_or_eq.mp hk with hlt' | heq'
            · exact hall k hlt'
            · exact heq' ▸ hprime)
      refine ⟨c', ?_, h2, le_trans hspec.2.2.2.1 h3⟩
      rw [getXMaxSt_succ_true hb]
      exact h1

theorem getXMaxSt_spec {a b : Int} {c : Cache} {fuel : Nat} (hg : goodCache c)
    (hf : stopN a b + 1 ≤ fuel) :
    ∃ c', getXMaxSt a b fuel 0 c = some (runLen a b, c') ∧ goodCache c' ∧
      c.highestChecked ≤ c'.highestChecked :=
  getXMaxSt_run fuel 0 c hg (by omega) (by omega) (fun k hk => absurd hk (by omega))

/-- When b is prime and a is at least 1 - b, a successful run of
get_x_max queries the oracle at x = 1 with the value 1 + a + b, so the
watermark ends at least there.  This is the fact that drives the
termination of the b-loop of main. -/
theorem getXMaxSt_hc_reach {a b : Int} : ∀ {fuel : Nat} {c : Cache} {r : Int} {c' : Cache},
    IsPrimeInt b → 1 - b ≤ a → goodCache c →
    getXMaxSt a b fuel 0 c = some (r, c') →
    (1 + a + b).toNat ≤ c'.highestChecked := by
  intro fuel c r c' hb ha hg h
  match fuel with
  | 0 => simp [getXMaxSt] at h
  | fuel + 1 =>
    have hspec := isPrimeCore_spec hg (qvalN a b 0)
    have hb0 : (isPrimeCore c (qvalN a b 0)).1 = true := by
      refine hspec.1.mpr ?_
      rw [qvalN_zero]
      exact hb
    rw [getXMaxSt_succ_true hb0] at h
    match fuel with
    | 0 => simp [getXMaxSt] at h
    | fuel + 1 =>
      have hg1 : goodCache (isPrimeCore c (qvalN a b 0)).2 := hspec.2.1
      have hval1 : (2 : Int) ≤ qvalN a b 1 := by
        rw [qvalN_one]
        omega
      have hreach : (qvalN a b 1).toNat ≤
          ((isPrimeCore (isPrimeCore c (qvalN a b 0)).2 (qvalN a b 1)).2).highestChecked :=
        isPrimeCore_hc_ge hval1
      have harith : (1 + a + b).toNat = (qvalN a b 1).toNat := by
        rw [qvalN_one]
      cases hb1 : (isPrimeCore (isPrimeCore c (qvalN a b 0)).2 (qvalN a b 1)).1 with
      | true =>
        rw [getXMaxSt_succ_true hb1] at h
        have := getXMaxSt_hc_mono fuel _ _ _ _ h
        omega
      | false =>
        rw [getXMaxSt_succ_false hb1] at h
        have hc' : (isPrimeCore (isPrimeCore c (qvalN a b 0)).2 (qvalN a b 1)).2 = c' :=
          congrArg Prod.snd (Option.some.inj h)
        rw [← hc']
        omega

/-- More fuel never changes a completed run of the get_x_max loop. -/
theorem getXMaxSt_mono {a b : Int} (fuel : Nat) :
    ∀ (fuel' x : Nat) (c : Cache) (rc : Int × Cache), fuel ≤ fuel' →
      getXMaxSt a b fuel x c = some rc → getXMaxSt a b fuel' x c = some rc := by
  induction fuel with
  | zero =>
    intro fuel' x c rc _ h
    simp [getXMaxSt] at h
  | succ fuel ih =>
    intro fuel' x c rc hle h
    obtain ⟨f', rfl⟩ : ∃ f', fuel' = f' + 1 := ⟨fuel' - 1, by omega⟩
    cases hb : (isPrimeCore c (qvalN a b x)).1 with
    | true =>
      rw [getXMaxSt_succ_true hb] at h ⊢
      exact ih f' _ _ _ (by omega) h
    | false =>
      rw [getXMaxSt_succ_false hb] at h ⊢
      exact h

theorem aLoAdj_odd (b : Int) : aLoAdj b % 2 = 1 := by
  unfold aLoAdj
  split <;> omega

theorem aLoAdj_ge (b : Int) : 1 - b ≤ aLoAdj b := by
  unfold aLoAdj
  split <;> omega

theorem aLoAdj_le (b : Int) : aLoAdj b ≤ 2 - b := by
  unfold aLoAdj
  split <;> omega

theorem pyRange2_mem_iff {lo hi a : Int} (hpar : lo % 2 = 1) :
    a ∈ pyRange2 lo hi ↔ (lo ≤ a ∧ a < hi ∧ a % 2 = 1) := by
  unfold pyRange2
  rw [List.mem_map]
  constructor
  · rintro ⟨k, hk, rfl⟩
    rw [List.mem_range] at hk
    refine ⟨by omega, by omega, by omega⟩
  · rintro ⟨h1, h2, h3⟩
    refine ⟨((a - lo) / 2).toNat, ?_, by omega⟩
    rw [List.mem_range]
    omega

theorem mem_aList_iff {n b a : Int} :
    a ∈ aList n b ↔ (aLoAdj b ≤ a ∧ a < n ∧ a % 2 = 1) :=
  pyRange2_mem_iff (aLoAdj_odd b)

theorem mem_bList {n : Int} {p : Nat} : p ∈ bList n ↔ Nat.Prime p ∧ (p : Int) < n := by
  unfold bList
  rw [mem_primesUpTo]
  constructor
  · rintro ⟨hp, hle⟩
    have := hp.two_le
    exact ⟨hp, by omega⟩
  · rintro ⟨hp, hlt⟩
    have := hp.two_le
    exact ⟨hp, by omega⟩

theorem mem_codePairs {n a b : Int} :
    (a, b) ∈ codePairs n ↔
      (IsPrimeInt b ∧ b < n ∧ aLoAdj b ≤ a ∧ a < n ∧ a % 2 = 1) := by
  unfold codePairs
  simp only [List.mem_flatMap, List.mem_map]
  constructor
  · rintro ⟨p, hp, a', ha', heq⟩
    obtain ⟨hpp, hplt⟩ := mem_bList.mp hp
    obtain ⟨h1, h2⟩ := Prod.mk.injEq .. ▸ heq
    subst h1
    subst h2
    have h2le := hpp.two_le
    refine ⟨⟨by omega, by rw [Int.toNat_natCast]; exact hpp⟩, hplt, ?_⟩
    have := mem_aList_iff.mp ha'
    exact this
  · rintro ⟨⟨hb2, hbp⟩, hblt, h1, h2, h3⟩
    have hcast : ((b.toNat : Nat) : Int) = b := by omega
    refine ⟨b.toNat, mem_bList.mpr ⟨hbp, by omega⟩, a, ?_, ?_⟩
    · rw [hcast]
      exact mem_aList_iff.mpr ⟨h1, h2, h3⟩
    · rw [hcast]

theorem searchFold_cons (best : Int × Int × Int) (p : Int × Int) (ps : List (Int × Int)) :
    searchFold best (p :: ps) = searchFold (updBest best p) ps := rfl

theorem updBest_x_le (best : Int × Int × Int) (p : Int × Int) :
    best.2.2 ≤ (updBest best p).2.2 := by
  unfold updBest
  split
  · next h => exact le_of_lt h
  · exact le_refl _

theorem updBest_run_le (best : Int × Int × Int) (p : Int × Int) :
    runLen p.1 p.2 ≤ (updBest best p).2.2 := by
  unfold updBest
  split
  · exact le_refl _
  · next h => omega

/-- The best run length recorded by the fold never decreases. -/
theorem searchFold_x_mono (l : List (Int × Int)) :
    ∀ best, best.2.2 ≤ (searchFold best l).2.2 := by
  induction l with
  | nil => exact fun best => le_refl _
  | cons p ps ih =>
    intro best
    rw [searchFold_cons]
    exact le_trans (updBest_x_le best p) (ih (updBest best p))

/-- The final best run length dominates the run length of every candidate
pair that the fold visited. -/
theorem searchFold_ge (l : List (Int × Int)) :
    ∀ best, ∀ pr ∈ l, runLen pr.1 pr.2 ≤ (searchFold best l).2.2 := by
  induction l with
  | nil =>
    intro best pr h
    cases h
  | cons p ps ih =>
    intro best pr hpr
    rw [searchFold_cons]
    rcases List.mem_cons.mp hpr with rfl | hmem
    · exact le_trans (updBest_run_le best pr) (searchFold_x_mono ps _)
    · exact ih (updBest best p) pr hmem

/-- Structure of the fold result: either no candidate strictly beat the
initial best and it is returned unchanged, or the result is the first
candidate in list order achieving the final (strictly improved) run
length, and every earlier candidate has a strictly smaller run length. -/
theorem searchFold_first (l : List (Int × Int)) : ∀ best,
    searchFold best l = best ∨
    ∃ l₁ a b l₂, l = l₁ ++ (a, b) :: l₂ ∧
      searchFold best l = (a, b, runLen a b) ∧
      best.2.2 < runLen a b ∧
      ∀ q ∈ l₁, runLen q.1 q.2 < runLen a b := by
  induction l with
  | nil => exact fun best => Or.inl rfl
  | cons p ps ih =>
    intro best
    rw [searchFold_cons]
    by_cases hcase : best.2.2 < runLen p.1 p.2
    · have hupd : updBest best p = (p.1, p.2, runLen p.1 p.2) := by
        unfold updBest
        rw [if_pos hcase]
      rcases ih (updBest best p) with h | ⟨l₁, a, b, l₂, hsplit, hres, hlt, hall⟩
      · right
        refine ⟨[], p.1, p.2, ps, by simp, ?_, hcase, by simp⟩
        rw [h, hupd]
      · right
        refine ⟨p :: l₁, a, b, l₂, by rw [hsplit, List.cons_append], hres, ?_, ?_⟩
        · rw [hupd] at hlt
          simp only at hlt
          omega
        · intro q hq
          rcases List.mem_cons.mp hq with rfl | hq'
          · rw [hupd] at hlt
            simp only at hlt
            omega
          · exact hall q hq'
    · have hupd : updBest best p = best := by
        unfold updBest
        rw [if_neg hcase]
      rcases ih (updBest best p) with h | ⟨l₁, a, b, l₂, hsplit, hres, hlt, hall⟩
      · left
        rw [h, hupd]
      · right
        rw [hupd] at hlt
        refine ⟨p :: l₁, a, b, l₂, by rw [hsplit, List.cons_append], hres, hlt, ?_⟩
        intro q hq
        rcases List.mem_cons.mp hq with rfl | hq'
        · omega
        · exact hall q hq'

theorem isPrimeInt_natCast {p : Nat} (hp : Nat.Prime p) : IsPrimeInt (p : Int) :=
  ⟨by exact_mod_cast hp.two_le, by rw [Int.toNat_natCast]; exact hp⟩

/-- Refinement of the inner for-a loop: with enough fuel for each
get_x_max call it completes, computes exactly the fold of the best-update
over the candidate pairs, preserves the cache invariant, and its final
watermark is at least 1 + a + b for every processed a at least 1 - b. -/
theorem aLoop_run {b : Int} {f : Nat} (hbp : IsPrimeInt b) (hfuel : b.toNat + 2 ≤ f) :
    ∀ (as : List Int) (best : Int × Int × Int) (c : Cache), goodCache c →
    ∃ c', aLoop b f as best c = some (searchFold best (as.map (fun a => (a, b))), c') ∧
      goodCache c' ∧ c.highestChecked ≤ c'.highestChecked ∧
      ∀ a ∈ as, 1 - b ≤ a → (1 + a + b).toNat ≤ c'.highestChecked := by
  intro as
  induction as with
  | nil =>
    intro best c hg
    exact ⟨c, rfl, hg, le_refl _, by simp⟩
  | cons a as ih =>
    intro best c hg
    have hstop : stopN a b + 1 ≤ f := by
      have := stopN_le_bound a b
      omega
    obtain ⟨c₁, h1, hg₁, hmono₁⟩ := getXMaxSt_spec hg hstop
    obtain ⟨c', h2, hg', hmono', hreach'⟩ := ih (updBest best (a, b)) c₁ hg₁
    refine ⟨c', ?_, hg', le_trans hmono₁ hmono', ?_⟩
    · simp only [aLoop, h1]
      rw [show (if best.2.2 < runLen a b then (a, b, runLen a b) else best) =
            updBest best (a, b) from rfl]
      rw [h2]
      rfl
    · intro a' ha' hge
      rcases List.mem_cons.mp ha' with rfl | hmem
      · have := getXMaxSt_hc_reach hbp hge hg h1
        omega
      · exact hreach' a' hmem hge

theorem aLoop_mono {b : Int} {f f' : Nat} (hle : f ≤ f') :
    ∀ (as : List Int) (best : Int × Int × Int) (c : Cache) (rc : (Int × Int × Int) × Cache),
      aLoop b f as best c = some rc → aLoop b f' as best c = some rc := by
  intro as
  induction as with
  | nil =>
    intro best c rc h
    exact h
  | cons a as ih =>
    intro best c rc h
    cases hx : getXMaxSt a b f 0 c with
    | none => simp [aLoop, hx] at h
    | some xc =>
      obtain ⟨x, c₁⟩ := xc
      have hx' := getXMaxSt_mono f f' 0 c (x, c₁) hle hx
      simp only [aLoop, hx] at h
      simp only [aLoop, hx']
      exact ih _ _ _ h

/-- While the watermark is at least n - 1, the prime list of a good cache
has the b-candidates as a stable prefix: position i of PRIME_LIST is the
i-th prime below n however much the cache has grown meanwhile. -/
theorem bList_index_lt {n : Int} {c : Cache} (hg : goodCache c)
    (hhc : (n - 1).toNat ≤ c.highestChecked) {i : Nat} (hi : i < (bList n).length) :
    c.primeList[i]? = some ((bList n)[i]) := by
  have hpre : bList n <+: primesUpTo c.highestChecked := primesUpTo_mono hhc
  rw [hg.1]
  obtain ⟨t, ht⟩ := hpre
  rw [← ht, List.getElem?_append, if_pos hi, List.getElem?_eq_getElem hi]

theorem bList_getElem_max {n : Int} {i : Nat} (hi : i < (bList n).length)
    (hlast : (bList n).length = i + 1) : ∀ r ∈ bList n, r ≤ (bList n)[i] := by
  intro r hr
  obtain ⟨j, hj, rfl⟩ := List.mem_iff_getElem.mp hr
  have hsorted : List.Pairwise (· < ·) (bList n) := primesUpTo_sorted (n - 1).toNat
  rcases Nat.lt_or_ge j i with hlt | hge
  · exact le_of_lt (List.pairwise_iff_getElem.mp hsorted j i hj hi hlt)
  · have : j = i := by omega
    exact this ▸ le_refl _

/-- When the watermark has passed some prime q at least n, the prime list
has an entry at the position just after all primes below n, and that
entry is at least n: the condition of the b-loop then fails instead of
the index running out. -/
theorem exit_index {n : Int} {c : Cache} (hg : goodCache c)
    {q : Nat} (hq : Nat.Prime q) (hqn : n ≤ (q : Int)) (hqc : q ≤ c.highestChecked) :
    ∃ t : Nat, c.primeList[(bList n).length]? = some t ∧ n ≤ (t : Int) := by
  have hq2 := hq.two_le
  have hpre : bList n <+: primesUpTo c.highestChecked := primesUpTo_mono (by omega)
  have hkK : (bList n).length ≤ (primesUpTo c.highestChecked).length := hpre.length_le
  have hqK : q ∈ primesUpTo c.highestChecked := mem_primesUpTo.mpr ⟨hq, hqc⟩
  have hklt : (bList n).length < (primesUpTo c.highestChecked).length := by
    rcases Nat.eq_or_lt_of_le hkK with heq | h
    · have heql : bList n = primesUpTo c.highestChecked := hpre.eq_of_length heq
      rw [← heql] at hqK
      have := (mem_bList.mp hqK).2
      omega
    · exact h
  refine ⟨(primesUpTo c.highestChecked)[(bList n).length], ?_, ?_⟩
  · rw [hg.1]
    exact List.getElem?_eq_getElem hklt
  · by_contra hcon
    push_neg at hcon
    have hKk_mem : (primesUpTo c.highestChecked)[(bList n).length] ∈
        primesUpTo c.highestChecked := List.getElem_mem hklt
    have hKk_prime := (mem_primesUpTo.mp hKk_mem).1
    have hmem : (primesUpTo c.highestChecked)[(bList n).length] ∈ bList n :=
      mem_bList.mpr ⟨hKk_prime, hcon⟩
    obtain ⟨j, hj, heq⟩ := List.mem_iff_getElem.mp hmem
    have hKj := hpre.getElem hj
    have hsorted : List.Pairwise (· < ·) (primesUpTo c.highestChecked) :=
      primesUpTo_sorted _
    have hjk := List.pairwise_iff_getElem.mp hsorted j (bList n).length
      (by omega) hklt hj
    rw [hKj] at heq
    omega

/-- Bertrand applied at the largest prime below n: the next prime is at
least n (by maximality) and at most twice the largest prime below n. -/
theorem next_prime_bound {n : Int} {pm : Nat} (hpm : Nat.Prime pm)
    (hmax : ∀ r ∈ bList n, r ≤ pm) :
    ∃ q : Nat, Nat.Prime q ∧ n ≤ (q : Int) ∧ (q : Int) ≤ 2 * (pm : Int) := by
  obtain ⟨q, hq, hq1, hq2⟩ :=
    Nat.exists_prime_lt_and_le_two_mul pm (by have := hpm.two_le; omega)
  refine ⟨q, hq, ?_, by exact_mod_cast hq2⟩
  by_contra hcon
  push_neg at hcon
  have hmem : q ∈ bList n := mem_bList.mpr ⟨hq, hcon⟩
  have := hmax q hmem
  omega

/-- The a-range for any prime b below n contains an odd a of at least
n - 2 (namely the largest odd integer below n). -/
theorem exists_big_a {n b : Int} (hn3 : 3 ≤ n) (hb2 : 2 ≤ b) :
    ∃ a, a ∈ aList n b ∧ 1 - b ≤ a ∧ n - 2 ≤ a := by
  have hle := aLoAdj_le b
  refine ⟨if n % 2 = 0 then n - 1 else n - 2, ?_, ?_, ?_⟩
  · rw [mem_aList_iff]
    refine ⟨?_, ?_, ?_⟩ <;> split <;> omega
  · split <;> omega
  · split <;> omega

/-- Refinement of the b-loop of main for n at least 3.  From any b-index
i with j primes of the enumeration left, a good cache whose watermark has
passed n - 1, and enough fuel, the loop computes exactly the fold of the
best-update over the remaining enumeration; the final iteration caches a
prime at least n (through Bertrand at the largest prime below n), so the
loop condition fails before the index leaves the list. -/
theorem mainLoop_run {n : Int} (hn3 : 3 ≤ n) :
    ∀ (j i f : Nat) (best : Int × Int × Int) (c : Cache),
      goodCache c → (n - 1).toNat ≤ c.highestChecked →
      i + j = (bList n).length →
      n.toNat + 2 + j ≤ f →
      (j = 0 → ∃ q : Nat, Nat.Prime q ∧ n ≤ (q : Int) ∧ q ≤ c.highestChecked) →
      mainLoop n f i best c =
        MainRes.out (searchFold best (pairsFrom n i)).1
          (searchFold best (pairsFrom n i)).2.1
          (searchFold best (pairsFrom n i)).2.2 := by
  intro j
  induction j with
  | zero =>
    intro i f best c hg hhc hsum hfuel hextra
    obtain ⟨q, hq, hqn, hqc⟩ := hextra rfl
    have hi : i = (bList n).length := by omega
    subst hi
    obtain ⟨f', rfl⟩ : ∃ f', f = f' + 1 := ⟨f - 1, by omega⟩
    obtain ⟨t, ht, htn⟩ := exit_index hg hq hqn hqc
    have hdrop : pairsFrom n (bList n).length = [] := by
      unfold pairsFrom
      rw [List.drop_length]
      rfl
    simp only [mainLoop, ht]
    rw [if_neg (by omega : ¬ (t : Int) < n), hdrop]
    rfl
  | succ j ih =>
    intro i f best c hg hhc hsum hfuel hextra
    have hi : i < (bList n).length := by omega
    obtain ⟨f', rfl⟩ : ∃ f', f = f' + 1 := ⟨f - 1, by omega⟩
    have hIdx := bList_index_lt hg hhc hi
    obtain ⟨hbprime, hblt⟩ : Nat.Prime ((bList n)[i]) ∧ (((bList n)[i] : Nat) : Int) < n :=
      mem_bList.mp (List.getElem_mem hi)
    have hb2 := hbprime.two_le
    have hbp : IsPrimeInt (((bList n)[i] : Nat) : Int) := isPrimeInt_natCast hbprime
    have hfa : ((((bList n)[i] : Nat) : Int)).toNat + 2 ≤ f' := by
      rw [Int.toNat_natCast]
      omega
    obtain ⟨c₁, haL, hg₁, hmono₁, hreach₁⟩ :=
      aLoop_run hbp hfa (aList n (((bList n)[i] : Nat) : Int)) best c hg
    simp only [mainLoop, hIdx]
    rw [if_pos hblt]
    simp only [haL]
    have hrec := ih (i + 1) f'
      (searchFold best ((aList n (((bList n)[i] : Nat) : Int)).map
        (fun a => (a, (((bList n)[i] : Nat) : Int))))) c₁
      hg₁ (le_trans hhc hmono₁) (by omega) (by omega) ?_
    · rw [hrec]
      have hpairs : pairsFrom n i =
          ((aList n (((bList n)[i] : Nat) : Int)).map
            (fun a => (a, (((bList n)[i] : Nat) : Int)))) ++ pairsFrom n (i + 1) := by
        unfold pairsFrom
        rw [List.drop_eq_getElem_cons hi, List.flatMap_cons]
      rw [hpairs]
      unfold searchFold
      rw [List.foldl_append]
    · intro hj0
      have hlast : (bList n).length = i + 1 := by omega
      have hmax := bList_getElem_max hi hlast
      obtain ⟨q, hq, hqn, hq2⟩ := next_prime_bound hbprime hmax
      obtain ⟨a, haMem, haGe, haBig⟩ :=
        @exists_big_a n (((bList n)[i] : Nat) : Int) hn3 (by exact_mod_cast hb2)
      have hre := hreach₁ a haMem haGe
      exact ⟨q, hq, hqn, by omega⟩

/-- The master refinement: for n at least 3, main with the stated fuel
terminates and returns exactly the pure search result. -/
theorem mainF_eq {n : Int} (hn3 : 3 ≤ n) :
    mainF (mainFuel n) n =
      MainRes.out (pureSearch n).1 (pureSearch n).2.1 (pureSearch n).2.2 := by
  unfold mainF
  rw [if_neg (by omega : ¬ n ≤ 0)]
  have hg₁ : goodCache (isPrimeCore initCache (n - 1)).2 :=
    isPrimeCore_good initCache_good _
  have hc₁ : (n - 1).toNat ≤ (isPrimeCore initCache (n - 1)).2.highestChecked :=
    @isPrimeCore_hc_ge initCache (n - 1) (by omega)
  have hk : (bList n).length ≤ n.toNat := by
    have h1 := List.length_filter_le isPrimeB (List.range ((n - 1).toNat + 1))
    have h2 : (List.range ((n - 1).toNat + 1)).length = (n - 1).toNat + 1 :=
      List.length_range _
    unfold bList primesUpTo
    omega
  have hk1 : 1 ≤ (bList n).length := by
    have h2 : 2 ∈ bList n := mem_bList.mpr ⟨Nat.prime_two, by omega⟩
    exact List.length_pos.mpr (List.ne_nil_of_mem h2)
  have hrun := mainLoop_run hn3 (bList n).length 0 (mainFuel n) (-1, -1, -1) _
    hg₁ hc₁ (by omega) (by unfold mainFuel; omega) (fun h0 => absurd h0 (by omega))
  rw [hrun]
  have hp0 : pairsFrom n 0 = codePairs n := by
    unfold pairsFrom codePairs
    rw [List.drop_zero]
  rw [hp0]
  rfl

theorem mainLoop_mono {n : Int} : ∀ (f f' i : Nat) (best : Int × Int × Int) (c : Cache)
    (r1 r2 r3 : Int), f ≤ f' →
    mainLoop n f i best c = MainRes.out r1 r2 r3 →
    mainLoop n f' i best c = MainRes.out r1 r2 r3 := by
  intro f
  induction f with
  | zero =>
    intro f' i best c r1 r2 r3 _ h
    exact absurd h (by simp [mainLoop])
  | succ f ihf =>
    intro f' i best c r1 r2 r3 hle h
    obtain ⟨f'', rfl⟩ : ∃ f'', f' = f'' + 1 := ⟨f' - 1, by omega⟩
    cases hIdx : c.primeList[i]? with
    | none =>
      simp only [mainLoop, hIdx] at h
      exact absurd h (by simp)
    | some p =>
      simp only [mainLoop, hIdx] at h ⊢
      by_cases hp : (p : Int) < n
      · rw [if_pos hp] at h ⊢
        cases haL : aLoop (p : Int) f (aList n (p : Int)) best c with
        | none =>
          rw [haL] at h
          exact absurd h (by simp)
        | some rc =>
          obtain ⟨best', c'⟩ := rc
          rw [haL] at h
          have haL' := aLoop_mono (by omega : f ≤ f'') _ _ _ _ haL
          rw [haL']
          exact ihf f'' (i + 1) best' c' r1 r2 r3 (by omega) h
      · rw [if_neg hp] at h ⊢
        exact h

theorem mainF_mono {n : Int} {f f' : Nat} (hle : f ≤ f') {r1 r2 r3 : Int}
    (h : mainF f n = MainRes.out r1 r2 r3) : mainF f' n = MainRes.out r1 r2 r3 := by
  unfold mainF at h ⊢
  by_cases hn : n ≤ 0
  · rw [if_pos hn] at h
    exact absurd h (by simp)
  · rw [if_neg hn] at h ⊢
    exact mainLoop_mono f f' 0 _ _ r1 r2 r3 hle h

/-- If main returns at all, the bound was at least 3: below 3 the call
either fails its assertion or raises the IndexError. -/
theorem mainReturns_n_ge {n : Int} {r : Int × Int × Int} (h : MainReturns n r) : 3 ≤ n := by
  obtain ⟨f, hf⟩ := h
  by_contra hcon
  push_neg at hcon
  unfold mainF at hf
  by_cases hn0 : n ≤ 0
  · rw [if_pos hn0] at hf
    exact absurd hf (by simp)
  · rw [if_neg hn0] at hf
    have hseed : isPrimeCore initCache (n - 1) = (false, initCache) := by
      unfold isPrimeCore
      rw [if_pos (by omega : n - 1 < 2)]
    rw [hseed] at hf
    cases f with
    | zero => exact absurd hf (by simp [mainLoop])
    | succ f =>
      have h0 : initCache.primeList[0]? = none := rfl
      simp only [mainLoop, h0] at hf
      exact absurd hf (by simp)

/-- Whatever main returns (for whatever fuel), it is the pure search
result. -/
theorem mainReturns_pureSearch {n : Int} {r : Int × Int × Int}
    (h : MainReturns n r) : r = pureSearch n := by
  have hn3 := mainReturns_n_ge h
  obtain ⟨f, hf⟩ := h
  have h1 := mainF_mono (Nat.le_max_left f (mainFuel n)) hf
  have h2 := mainF_mono (Nat.le_max_right f (mainFuel n)) (mainF_eq hn3)
  rw [h1] at h2
  obtain ⟨e1, e2, e3⟩ := MainRes.out.inj h2
  exact Prod.ext e1 (Prod.ext e2 e3)

/-- For n at least 3, main does return (the refinement at the stated
fuel). -/
theorem mainReturns_exists {n : Int} (hn3 : 3 ≤ n) : MainReturns n (pureSearch n) :=
  ⟨mainFuel n, mainF_eq hn3⟩

/-- The b-loop never produces the assertion-failure outcome; only the
guard of main does. -/
theorem mainLoop_ne_assert {n : Int} : ∀ (f i : Nat) (best : Int × Int × Int) (c : Cache),
    mainLoop n f i best c ≠ MainRes.assertErr := by
  intro f
  induction f with
  | zero =>
    intro i best c
    simp [mainLoop]
  | succ f ihf =>
    intro i best c
    cases hIdx : c.primeList[i]? with
    | none => simp [mainLoop, hIdx]
    | some p =>
      simp only [mainLoop, hIdx]
      by_cases hp : (p : Int) < n
      · rw [if_pos hp]
        cases haL : aLoop (p : Int) f (aList n (p : Int)) best c with
        | none => simp
        | some rc =>
          obtain ⟨best', c'⟩ := rc
          exact ihf (i + 1) best' c'
      · rw [if_neg hp]
        simp

/-- For n equal to 1 or 2 the seeding call caches nothing, so the very
first b-loop condition indexes the empty prime list: IndexError for any
positive fuel (and fuel 0 is the fuel-exhaustion artefact of the model). -/
theorem mainF_low_ixErr {n : Int} (h1 : 1 ≤ n) (h2 : n ≤ 2) (f : Nat) :
    mainF (f + 1) n = MainRes.ixErr := by
  unfold mainF
  rw [if_neg (by omega : ¬ n ≤ 0)]
  have hseed : isPrimeCore initCache (n - 1) = (false, initCache) := by
    unfold isPrimeCore
    rw [if_pos (by omega : n - 1 < 2)]
  rw [hseed]
  have h0 : initCache.primeList[0]? = none := rfl
  simp only [mainLoop, h0]

theorem pair_neg1_two_mem {n : Int} (hn3 : 3 ≤ n) : ((-1 : Int), (2 : Int)) ∈ codePairs n :=
  mem_codePairs.mpr ⟨by decide, by omega, by decide, by omega, by decide⟩

theorem pair_neg1_three_mem {n : Int} (hn4 : 4 ≤ n) : ((-1 : Int), (3 : Int)) ∈ codePairs n :=
  mem_codePairs.mpr ⟨by decide, by omega, by decide, by omega, by decide⟩

theorem codePairs_le_pureSearch {n a b : Int} (h : (a, b) ∈ codePairs n) :
    runLen a b ≤ (pureSearch n).2.2 := by
  unfold pureSearch
  have hge := searchFold_ge (codePairs n) (-1, -1, -1) (a, b) h
  simpa using hge

/-- The pair a = -1, b = 2 gives the run 2, 2 of length two (x_max 1), so
for n at least 3 the search result is at least 1. -/
theorem pureSearch_x_ge_one {n : Int} (hn3 : 3 ≤ n) : 1 ≤ (pureSearch n).2.2 := by
  have hge := codePairs_le_pureSearch (pair_neg1_two_mem hn3)
  have hr : runLen (-1) 2 = 1 := by decide
  simp only at hge
  omega

theorem pureSearch_x_ge_two {n : Int} (hn4 : 4 ≤ n) : 2 ≤ (pureSearch n).2.2 := by
  have hge := codePairs_le_pureSearch (pair_neg1_three_mem hn4)
  have hr : runLen (-1) 3 = 2 := by decide
  simp only at hge
  omega

/-- For n at least 3 the search result is not the sentinel: it is the
first pair of the enumeration achieving the final run length, every
earlier pair has a strictly smaller run length, and the recorded run
length is the true run length of the recorded pair. -/
theorem pureSearch_winner {n : Int} (hn3 : 3 ≤ n) :
    ∃ l₁ l₂, codePairs n = l₁ ++ ((pureSearch n).1, (pureSearch n).2.1) :: l₂ ∧
      runLen (pureSearch n).1 (pureSearch n).2.1 = (pureSearch n).2.2 ∧
      (∀ q ∈ l₁, runLen q.1 q.2 < (pureSearch n).2.2) ∧
      ((pureSearch n).1, (pureSearch n).2.1) ∈ codePairs n := by
  have hM1 := pureSearch_x_ge_one hn3
  rcases searchFold_first (codePairs n) (-1, -1, -1) with h | ⟨l₁, a, b, l₂, hsplit, hres, hlt, hall⟩
  · have hx : (pureSearch n).2.2 = -1 := by
      unfold pureSearch
      rw [h]
    omega
  · have hps : pureSearch n = (a, b, runLen a b) := hres
    refine ⟨l₁, l₂, ?_, ?_, ?_, ?_⟩
    · rw [hps]
      exact hsplit
    · rw [hps]
    · intro q hq
      rw [hps]
      exact hall q hq
    · rw [hps, hsplit]
      simp

/-- Pruning is lossless: every integer pair with coefficients of
magnitude below n has a run length bounded by the search result.  The
pruned-away pairs are those with b not prime (run length -1), those with
a below the adjusted lower bound (the value at x = 1 is below 2), and
those with even a (the value at x = 1 or 2, or at 3 for the single
exception a = -2, b = 3, is even or below 2, bounding the run by what
the searched pairs already achieve). -/
theorem prune_safe {n a b : Int} (hn3 : 3 ≤ n)
    (ha : (a.natAbs : Int) < n) (hb : (b.natAbs : Int) < n) :
    runLen a b ≤ (pureSearch n).2.2 := by
  have hM1 : (1 : Int) ≤ (pureSearch n).2.2 := pureSearch_x_ge_one hn3
  by_cases hbp : IsPrimeInt b
  · have hb2 : (2 : Int) ≤ b := hbp.1
    have hblt : b < n := by omega
    by_cases hodd : a % 2 = 1
    · by_cases hage : aLoAdj b ≤ a
      · have hmem : (a, b) ∈ codePairs n :=
          mem_codePairs.mpr ⟨hbp, hblt, hage, by omega, hodd⟩
        exact codePairs_le_pureSearch hmem
      · push_neg at hage
        have hval1 : ¬ IsPrimeInt (qvalN a b 1) := by
          rw [qvalN_one]
          refine not_isPrimeInt_of_lt_two ?_
          unfold aLoAdj at hage
          by_cases hpar : (1 - b) % 2 = 0
          · rw [if_pos hpar] at hage
            omega
          · rw [if_neg hpar] at hage
            omega
        have := runLen_le_of_fail hval1
        omega
    · have hodd' : a % 2 = 0 := by omega
      by_cases hb2' : b = 2
      · subst hb2'
        by_cases ha2 : a = -2
        · subst ha2
          have hval1 : ¬ IsPrimeInt (qvalN (-2) 2 1) := by
            rw [qvalN_one]
            exact not_isPrimeInt_of_lt_two (by omega)
          have := runLen_le_of_fail hval1
          omega
        · have hval2 : ¬ IsPrimeInt (qvalN a 2 2) := by
            rw [qvalN_two]
            exact not_isPrimeInt_even (by omega) (by omega)
          have := runLen_le_of_fail hval2
          omega
      · have hbodd : b % 2 = 1 := by
          by_contra hcon
          exact not_isPrimeInt_even (by omega) hb2' hbp
        by_cases ha1b : a = 1 - b
        · subst ha1b
          by_cases hb3 : b = 3
          · subst hb3
            have hM2 : (2 : Int) ≤ (pureSearch n).2.2 := pureSearch_x_ge_two (by omega)
            have hval3 : ¬ IsPrimeInt (qvalN (1 - 3) 3 3) := by
              rw [qvalN_three]
              decide
            have := runLen_le_of_fail hval3
            omega
          · have hval2 : ¬ IsPrimeInt (qvalN (1 - b) b 2) := by
              rw [qvalN_two]
              exact not_isPrimeInt_of_lt_two (by omega)
            have := runLen_le_of_fail hval2
            omega
        · have hval1 : ¬ IsPrimeInt (qvalN a b 1) := by
            rw [qvalN_one]
            exact not_isPrimeInt_even (by omega) (by omega)
          have := runLen_le_of_fail hval1
          omega
  · have hneg := (runLen_eq_neg_one_iff a b).mpr hbp
    omega

theorem getXMaxSt_good {a b : Int} (fuel : Nat) :
    ∀ (x : Nat) (c : Cache) (r : Int) (c' : Cache), goodCache c →
      getXMaxSt a b fuel x c = some (r, c') → goodCache c' := by
  induction fuel with
  | zero =>
    intro x c r c' _ h
    simp [getXMaxSt] at h
  | succ fuel ih =>
    intro x c r c' hg h
    have hgood := isPrimeCore_good hg (qvalN a b x)
    cases hb : (isPrimeCore c (qvalN a b x)).1 with
    | true =>
      rw [getXMaxSt_succ_true hb] at h
      exact ih _ _ _ _ hgood h
    | false =>
      rw [getXMaxSt_succ_false hb] at h
      have hc' : (isPrimeCore c (qvalN a b x)).2 = c' := congrArg Prod.snd (Option.some.inj h)
      exact hc' ▸ hgood

/-- Any successful run of the a-loop, whatever the fuel, preserves the
invariant, grows the watermark, and (when b is prime) pushes it past
1 + a + b for every processed a at least 1 - b. -/
theorem aLoop_any {b : Int} {f : Nat} : ∀ (as : List Int) (best : Int × Int × Int) (c : Cache)
    (best' : Int × Int × Int) (c' : Cache), goodCache c →
    aLoop b f as best c = some (best', c') →
    goodCache c' ∧ c.highestChecked ≤ c'.highestChecked ∧
      (IsPrimeInt b → ∀ a ∈ as, 1 - b ≤ a → (1 + a + b).toNat ≤ c'.highestChecked) := by
  intro as
  induction as with
  | nil =>
    intro best c best' c' hg h
    have hc' : c = c' := congrArg Prod.snd (Option.some.inj h)
    subst hc'
    exact ⟨hg, le_refl _, fun _ a ha => absurd ha (List.not_mem_nil a)⟩
  | cons a as ih =>
    intro best c best' c' hg h
    cases hx : getXMaxSt a b f 0 c with
    | none => simp [aLoop, hx] at h
    | some rc =>
      obtain ⟨x, c₁⟩ := rc
      simp only [aLoop, hx] at h
      have hg₁ := getXMaxSt_good f 0 c x c₁ hg hx
      have hm₁ := getXMaxSt_hc_mono f 0 c x c₁ hx
      obtain ⟨hg', hm', hreach'⟩ := ih _ c₁ best' c' hg₁ h
      refine ⟨hg', le_trans hm₁ hm', ?_⟩
      intro hbp a' ha' hge
      rcases List.mem_cons.mp ha' with rfl | hmem
      · have := getXMaxSt_hc_reach hbp hge hg hx
        omega
      · exact hreach' hbp a' hmem hge

/-- For n at least 3 the b-loop never raises the IndexError, for any
fuel: within the prime prefix the index is in bounds, and by the time the
index passes it a prime at least n has always been cached. -/
theorem mainLoop_ne_ixErr {n : Int} (hn3 : 3 ≤ n) :
    ∀ (f i : Nat) (best : Int × Int × Int) (c : Cache),
      goodCache c → (n - 1).toNat ≤ c.highestChecked →
      i ≤ (bList n).length →
      (i = (bList n).length → ∃ q : Nat, Nat.Prime q ∧ n ≤ (q : Int) ∧ q ≤ c.highestChecked) →
      mainLoop n f i best c ≠ MainRes.ixErr := by
  intro f
  induction f with
  | zero =>
    intro i best c _ _ _ _
    simp [mainLoop]
  | succ f ihf =>
    intro i best c hg hhc hik hextra
    rcases Nat.eq_or_lt_of_le hik with heq | hlt
    · obtain ⟨q, hq, hqn, hqc⟩ := hextra heq
      subst heq
      obtain ⟨t, ht, htn⟩ := exit_index hg hq hqn hqc
      simp only [mainLoop, ht]
      rw [if_neg (by omega : ¬ (t : Int) < n)]
      simp
    · have hIdx := bList_index_lt hg hhc hlt
      obtain ⟨hbprime, hblt⟩ := mem_bList.mp (List.getElem_mem hlt)
      have hb2 := hbprime.two_le
      simp only [mainLoop, hIdx]
      rw [if_pos hblt]
      cases haL : aLoop (((bList n)[i] : Nat) : Int) f
          (aList n (((bList n)[i] : Nat) : Int)) best c with
      | none => simp
      | some rc =>
        obtain ⟨best', c₁⟩ := rc
        obtain ⟨hg₁, hm₁, hreach₁⟩ := aLoop_any _ best c best' c₁ hg haL
        refine ihf (i + 1) best' c₁ hg₁ (le_trans hhc hm₁) (by omega) ?_
        intro hlast
        have hmax := bList_getElem_max hlt (by omega)
        obtain ⟨q, hq, hqn, hq2⟩ := next_prime_bound hbprime hmax
        obtain ⟨a, haMem, haGe, haBig⟩ :=
          @exists_big_a n (((bList n)[i] : Nat) : Int) hn3 (by exact_mod_cast hb2)
        have hre := hreach₁ (isPrimeInt_natCast hbprime) a haMem haGe
        exact ⟨q, hq, hqn, by omega⟩

theorem mainF_ne_ixErr {n : Int} (hn3 : 3 ≤ n) (f : Nat) :
    mainF f n ≠ MainRes.ixErr := by
  unfold mainF
  rw [if_neg (by omega : ¬ n ≤ 0)]
  have hg₁ : goodCache (isPrimeCore initCache (n - 1)).2 :=
    isPrimeCore_good initCache_good _
  have hc₁ : (n - 1).toNat ≤ (isPrimeCore initCache (n - 1)).2.highestChecked :=
    @isPrimeCore_hc_ge initCache (n - 1) (by omega)
  have hk1 : 1 ≤ (bList n).length := by
    have h2 : 2 ∈ bList n := mem_bList.mpr ⟨Nat.prime_two, by omega⟩
    exact List.length_pos.mpr (List.ne_nil_of_mem h2)
  exact mainLoop_ne_ixErr hn3 f 0 _ _ hg₁ hc₁ (by omega) (fun h0 => absurd h0 (by omega))

/-! ## Claim theorems -/

/-- C1: for every positive integer N for which main(N) returns a triple
(a, b, x_max), no integer pair with coefficient magnitudes below N has a
consecutive-prime run from 0 of length beyond x_max (maximality over the
entire space, including the pruned-away pairs), the recorded x_max is the
true run length of the returned pair, and the returned pair is the first
one in the iteration order of the code (b ascending over primes, then a
ascending) achieving x_max: every earlier pair has a strictly smaller run
length, because the best triple is overwritten only on strict
improvement. -/
theorem spec_C1 (n a b x : Int) (h : MainReturns n (a, b, x)) :
    (∀ a' b' : Int, (a'.natAbs : Int) < n → (b'.natAbs : Int) < n →
      ∀ m : Nat, (∀ k : Nat, k ≤ m → IsPrimeInt (qvalN a' b' k)) → (m : Int) ≤ x) ∧
    runLen a b = x ∧
    ∃ l₁ l₂, codePairs n = l₁ ++ (a, b) :: l₂ ∧ ∀ q ∈ l₁, runLen q.1 q.2 < x := by
  have hn3 := mainReturns_n_ge h
  have hps := mainReturns_pureSearch h
  have h1 : (pureSearch n).1 = a := by rw [← hps]
  have h21 : (pureSearch n).2.1 = b := by rw [← hps]
  have h22 : (pureSearch n).2.2 = x := by rw [← hps]
  refine ⟨?_, ?_⟩
  · intro a' b' ha' hb' m hall
    have hge := runLen_ge_of_all (fun k hk => hall k hk)
    have hle := prune_safe hn3 ha' hb'
    omega
  · obtain ⟨l₁, l₂, hsplit, hrun, hall, _⟩ := pureSearch_winner hn3
    rw [h1, h21] at hsplit
    rw [h1, h21, h22] at hrun
    refine ⟨hrun, l₁, l₂, hsplit, ?_⟩
    intro q hq
    rw [← h22]
    exact hall q hq

theorem spec_C1_witness :
    MainReturns 3 ((-1 : Int), (2 : Int), (1 : Int)) ∧
    ((∀ a' b' : Int, (a'.natAbs : Int) < 3 → (b'.natAbs : Int) < 3 →
      ∀ m : Nat, (∀ k : Nat, k ≤ m → IsPrimeInt (qvalN a' b' k)) → (m : Int) ≤ 1) ∧
    runLen (-1) 2 = 1 ∧
    ∃ l₁ l₂, codePairs 3 = l₁ ++ ((-1 : Int), (2 : Int)) :: l₂ ∧
      ∀ q ∈ l₁, runLen q.1 q.2 < 1) :=
  ⟨⟨10, rfl⟩, spec_C1 3 (-1) 2 1 ⟨10, rfl⟩⟩

/-- C2: in every reachable cache state (after any prior sequence of
is_prime calls), is_prime(x) returns True exactly when x is at least 2
and has no divisors other than 1 and itself, and in particular returns
False for every x below 2. -/
theorem spec_C2 (qs : List Int) (x : Int) :
    ((isPrimeCore (runQueries qs) x).1 = true ↔
      (2 ≤ x ∧ ∀ m : Nat, m ∣ x.toNat → m = 1 ∨ m = x.toNat)) ∧
    (x < 2 → (isPrimeCore (runQueries qs) x).1 = false) := by
  have hspec := isPrimeCore_spec (runQueries_good qs) x
  constructor
  · rw [hspec.1]
    unfold IsPrimeInt
    constructor
    · rintro ⟨hx1, hx2⟩
      exact ⟨hx1, (Nat.prime_def.mp hx2).2⟩
    · rintro ⟨hx1, hx2⟩
      exact ⟨hx1, Nat.prime_def.mpr ⟨by omega, hx2⟩⟩
  · intro hx
    cases hb : (isPrimeCore (runQueries qs) x).1 with
    | false => rfl
    | true => exact absurd (hspec.1.mp hb) (not_isPrimeInt_of_lt_two hx)

/-- C3: whenever the get_x_max loop returns a value x from a reachable
cache state, every quadratic value at indices 0..x is prime, the value at
x + 1 is not (so x is the largest such index), x is at least -1 and
equals -1 exactly when the value at index 0 (which is b) is not prime,
and a -1 result never overwrites a recorded best with run length at
least 0, since the best is replaced only on strict improvement. -/
theorem spec_C3 (qs : List Int) (a b : Int) (f : Nat) (x : Int) (c' : Cache)
    (h : getXMaxSt a b f 0 (runQueries qs) = some (x, c')) :
    -1 ≤ x ∧
    (∀ k : Nat, (k : Int) ≤ x → IsPrimeInt (qvalN a b k)) ∧
    ¬ IsPrimeInt (qvalN a b (x + 1).toNat) ∧
    (∀ m : Nat, (∀ k : Nat, k ≤ m → IsPrimeInt (qvalN a b k)) → (m : Int) ≤ x) ∧
    (x = -1 ↔ ¬ IsPrimeInt b) ∧
    (∀ u v w : Int, 0 ≤ w → x = -1 → updBest (u, v, w) (a, b) = (u, v, w)) := by
  have hg := runQueries_good qs
  have hx : x = runLen a b :=
    getXMaxSt_result f 0 _ x c' hg (fun k hk => absurd hk (by omega)) h
  subst hx
  refine ⟨runLen_ge_neg_one a b, fun k hk => runLen_all_prime hk, runLen_next_fail a b,
    fun m hall => runLen_ge_of_all (fun k hk => hall k hk), runLen_eq_neg_one_iff a b, ?_⟩
  intro u v w hw hneg
  have hcond : ¬ ((u, v, w).2.2 < runLen (a, b).1 (a, b).2) := by
    change ¬ (w < runLen a b)
    omega
  unfold updBest
  rw [if_neg hcond]

theorem spec_C3_witness :
    getXMaxSt (-1) 2 5 0 (runQueries []) = some (1, (⟨[2, 3], [2, 3], 4⟩ : Cache)) ∧
    (-1 ≤ (1 : Int) ∧
    (∀ k : Nat, (k : Int) ≤ 1 → IsPrimeInt (qvalN (-1) 2 k)) ∧
    ¬ IsPrimeInt (qvalN (-1) 2 ((1 : Int) + 1).toNat) ∧
    (∀ m : Nat, (∀ k : Nat, k ≤ m → IsPrimeInt (qvalN (-1) 2 k)) → (m : Int) ≤ 1) ∧
    ((1 : Int) = -1 ↔ ¬ IsPrimeInt 2) ∧
    (∀ u v w : Int, 0 ≤ w → (1 : Int) = -1 → updBest (u, v, w) (-1, 2) = (u, v, w))) :=
  ⟨rfl, spec_C3 [] (-1) 2 5 1 (⟨[2, 3], [2, 3], 4⟩ : Cache) rfl⟩

/-- C4 (amended): for every integer N at least 3, main(N) terminates and
returns a triple, and for no amount of fuel does it raise the IndexError
or the assertion failure; for N equal to 1 or 2 however (see the
counterexample) the b-loop condition indexes the empty prime list. -/
theorem spec_C4 (n : Int) (hn3 : 3 ≤ n) :
    (∃ r : Int × Int × Int, MainReturns n r) ∧
    (∀ f : Nat, mainF f n ≠ MainRes.ixErr) ∧
    (∀ f : Nat, mainF f n ≠ MainRes.assertErr) := by
  refine ⟨⟨pureSearch n, mainReturns_exists hn3⟩, mainF_ne_ixErr hn3, ?_⟩
  intro f
  unfold mainF
  rw [if_neg (by omega : ¬ n ≤ 0)]
  exact mainLoop_ne_assert f 0 _ _

theorem spec_C4_witness :
    (3 : Int) ≤ 3 ∧
    ((∃ r : Int × Int × Int, MainReturns 3 r) ∧
    (∀ f : Nat, mainF f 3 ≠ MainRes.ixErr) ∧
    (∀ f : Nat, mainF f 3 ≠ MainRes.assertErr)) :=
  ⟨by decide, spec_C4 3 (by decide)⟩

/-- C4, counterexample to the original claim: at the positive integer
N = 1 the call main(1) raises IndexError (the seeding call is_prime(0)
caches nothing, so PRIME_LIST[0] is out of range) and in particular never
returns a triple. -/
theorem spec_C4_cex :
    mainF 5 1 = MainRes.ixErr ∧ ¬ ∃ r : Int × Int × Int, MainReturns 1 r := by
  constructor
  · rfl
  · rintro ⟨r, f, hf⟩
    have h3 := mainReturns_n_ge ⟨f, hf⟩
    omega

/-- C5: every is_prime call from a reachable state preserves the cache
invariant: afterwards PRIME_LIST holds exactly the primes in
[2, HIGHEST_CHECKED] in strictly ascending order, PRIME_SET has exactly
the same members as PRIME_LIST, the old list is a prefix of the new one
(the cache only grows) and HIGHEST_CHECKED never decreases. -/
theorem spec_C5 (qs : List Int) (x : Int) :
    (∀ p : Nat, p ∈ ((isPrimeCore (runQueries qs) x).2).primeList ↔
      (Nat.Prime p ∧ 2 ≤ p ∧ p ≤ ((isPrimeCore (runQueries qs) x).2).highestChecked)) ∧
    List.Pairwise (· < ·) ((isPrimeCore (runQueries qs) x).2).primeList ∧
    (∀ p : Nat, p ∈ ((isPrimeCore (runQueries qs) x).2).primeSet ↔
      p ∈ ((isPrimeCore (runQueries qs) x).2).primeList) ∧
    (runQueries qs).primeList <+: ((isPrimeCore (runQueries qs) x).2).primeList ∧
    (runQueries qs).highestChecked ≤ ((isPrimeCore (runQueries qs) x).2).highestChecked := by
  have hspec := isPrimeCore_spec (runQueries_good qs) x
  obtain ⟨hl, hs, h1⟩ := hspec.2.1
  refine ⟨?_, ?_, ?_, hspec.2.2.1, hspec.2.2.2.1⟩
  · intro p
    rw [hl, mem_primesUpTo]
    constructor
    · rintro ⟨hp, hle⟩
      exact ⟨hp, hp.two_le, hle⟩
    · rintro ⟨hp, _, hle⟩
      exact ⟨hp, hle⟩
  · rw [hl]
    exact primesUpTo_sorted _
  · intro p
    rw [hl, hs]

/-- C6: for every pair of integers a and b and from every reachable cache
state, the while loop of get_x_max terminates: some index has a
non-prime quadratic value, and the loop (given that much fuel) completes
with a result. -/
theorem spec_C6 (a b : Int) (qs : List Int) :
    (∃ m : Nat, ¬ IsPrimeInt (qvalN a b m)) ∧
    (∃ fuel : Nat, ∃ x : Int, ∃ c' : Cache,
      getXMaxSt a b fuel 0 (runQueries qs) = some (x, c')) := by
  obtain ⟨m, _, hm⟩ := exists_fail a b
  obtain ⟨c', hrun, _, _⟩ := getXMaxSt_spec (runQueries_good qs) (le_refl (stopN a b + 1))
  exact ⟨⟨m, hm⟩, stopN a b + 1, runLen a b, c', hrun⟩

/-- C7: whenever main(N) returns a triple (a, b, x_max), the returned
coefficients satisfy the strict bounds of the problem: the magnitude of a
and of b are both strictly below N (in particular b = N is never
returned). -/
theorem spec_C7 (n a b x : Int) (h : MainReturns n (a, b, x)) :
    (a.natAbs : Int) < n ∧ (b.natAbs : Int) < n := by
  have hn3 := mainReturns_n_ge h
  have hps := mainReturns_pureSearch h
  have h1 : (pureSearch n).1 = a := by rw [← hps]
  have h21 : (pureSearch n).2.1 = b := by rw [← hps]
  obtain ⟨_, _, _, _, _, hmem⟩ := pureSearch_winner hn3
  rw [h1, h21] at hmem
  obtain ⟨⟨hb2, _⟩, hblt, hage, haub, _⟩ := mem_codePairs.mp hmem
  have hgeb := aLoAdj_ge b
  constructor
  · omega
  · omega

theorem spec_C7_witness :
    MainReturns 3 ((-1 : Int), (2 : Int), (1 : Int)) ∧
    (((-1 : Int).natAbs : Int) < 3 ∧ (((2 : Int)).natAbs : Int) < 3) :=
  ⟨⟨10, rfl⟩, spec_C7 3 (-1) 2 1 ⟨10, rfl⟩⟩

/-- C8: for integer arguments, main raises its assertion failure exactly
when n is not positive, and then returns nothing; with a valid argument
no outcome is the assertion failure, and nothing in the core catches it
(the model has no handler: the result is propagated as is).  The
non-integer half of the claim is enforced by the types of the embedding
(get_x_max and main only accept integers), so its assertions on argument
types cannot fail here. -/
theorem spec_C8 (fuel : Nat) (n : Int) :
    mainF fuel n = MainRes.assertErr ↔ n ≤ 0 := by
  constructor
  · intro h
    by_contra hc
    push_neg at hc
    unfold mainF at h
    rw [if_neg (by omega : ¬ n ≤ 0)] at h
    exact mainLoop_ne_assert fuel 0 _ _ h
  · intro h
    unfold mainF
    rw [if_pos h]

/-- C9: the answers of is_prime are independent of query order: from the
initial process state, the answer to every query in a sequence is the
pure primality of that value alone, whatever came before it; hence any
two orderings of the same queries (sorted ascending or not) receive
identical answers for each queried value. -/
theorem spec_C9 (qs : List Int) :
    answersFrom initCache qs = qs.map (fun q => decide (IsPrimeInt q)) :=
  answersFrom_pure qs initCache initCache_good

/-- C10: for every integer N at least 3, a returned triple is never the
sentinel (-1, -1, -1): the run length is at least 1 (the pair b = 2,
a = -1 already gives the values 2, 2), the returned b is a prime with
2 <= b < N, and the returned a is odd with 1 - b <= a < N. -/
theorem spec_C10 (n a b x : Int) (hn3 : 3 ≤ n) (h : MainReturns n (a, b, x)) :
    (a, b, x) ≠ ((-1 : Int), (-1 : Int), (-1 : Int)) ∧
    1 ≤ x ∧ IsPrimeInt b ∧ 2 ≤ b ∧ b < n ∧ Odd a ∧ 1 - b ≤ a ∧ a < n := by
  have hps := mainReturns_pureSearch h
  have h1 : (pureSearch n).1 = a := by rw [← hps]
  have h21 : (pureSearch n).2.1 = b := by rw [← hps]
  have h22 : (pureSearch n).2.2 = x := by rw [← hps]
  obtain ⟨_, _, _, _, _, hmem⟩ := pureSearch_winner hn3
  rw [h1, h21] at hmem
  obtain ⟨hbp, hblt, hage, haub, hodd⟩ := mem_codePairs.mp hmem
  have hx1 : 1 ≤ x := by
    rw [← h22]
    exact pureSearch_x_ge_one hn3
  have hgeb := aLoAdj_ge b
  have hb2 : (2 : Int) ≤ b := hbp.1
  refine ⟨?_, hx1, hbp, hb2, hblt, Int.odd_iff.mpr hodd, by omega, haub⟩
  intro hcon
  have hbeq : b = -1 := congrArg (fun t => t.2.1) hcon
  omega

theorem spec_C10_witness :
    (3 : Int) ≤ 3 ∧ MainReturns 3 ((-1 : Int), (2 : Int), (1 : Int)) ∧
    (((-1 : Int), (2 : Int), (1 : Int)) ≠ ((-1 : Int), (-1 : Int), (-1 : Int)) ∧
    1 ≤ (1 : Int) ∧ IsPrimeInt 2 ∧ (2 : Int) ≤ 2 ∧ (2 : Int) < 3 ∧ Odd (-1 : Int) ∧
    (1 : Int) - 2 ≤ -1 ∧ (-1 : Int) < 3) :=
  ⟨by decide, ⟨10, rfl⟩, spec_C10 3 (-1) 2 1 (by decide) ⟨10, rfl⟩⟩
